import Mathlib

/-!
Verification of the Weighted Fair Queuing (WFQ) scheduler in
src/sample/weighted_fair_queuing/main.go.

Shallow embedding conventions:
* float64 is modelled as the rationals; int and int64 as integers;
  time.Time / time.Duration instants as integer parameters supplied to each
  operation ("now").
* The identity of each freshly allocated one-shot Done channel is modelled by
  a serial number drawn from a counter; a value sent on a Done channel is
  recorded by appending that serial to a fulfilment trace.
* The done channel of the scheduler (closed by Stop) is modelled as a
  boolean flag.
* The Go map of queues is modelled as an association list; heap entries, which
  in Go are pointers to Queue records, are modelled as pairs of the queue id
  and the virtualFinish key at push time (a queue's virtualFinish is never
  mutated while the queue sits in the heap, so the snapshot agrees with the
  pointed-to field).
* container/heap's Push, Pop, up and down are translated verbatim over lists;
  the scheduler's mutex serialises all operations, so the observable behaviour
  is the set of states reachable by sequences of atomic operations.
-/

namespace WFQ

/-- An entry of VirtualTimeHeap: in Go a pointer to a Queue; here the queue id
together with the queue's virtualFinish at push time. -/
structure HeapElem where
  vf : ℚ
  qid : String
  deriving DecidableEq

/-- Indexing into the heap slice, with a junk default (Go indexing is always
in bounds at use sites). -/
def nth (l : List HeapElem) (i : ℕ) : HeapElem := l.getD i ⟨0, ""⟩

/-- VirtualTimeHeap.Swap: h[i], h[j] = h[j], h[i]. -/
def hswap (l : List HeapElem) (i j : ℕ) : List HeapElem :=
  (l.set i (nth l j)).set j (nth l i)

/-- container/heap's sift-up loop: while j has a parent i = (j-1)/2 with
Less(j, i) (that is h[j].virtualFinish < h[i].virtualFinish), swap and
continue from i.  The loop is rendered with an explicit iteration budget so
that it is structurally recursive; the parent index strictly decreases, so a
budget of j+1 (the one every caller passes, see up_fuel) is never exhausted
and the budget-0 branch is dead code. -/
def up (fuel : ℕ) (l : List HeapElem) (j : ℕ) : List HeapElem :=
  match fuel with
  | 0 => l
  | fuel + 1 =>
      if j = 0 then l
      else
        if (nth l j).vf < (nth l ((j-1)/2)).vf then up fuel (hswap l ((j-1)/2) j) ((j-1)/2)
        else l

/-- container/heap's sift-down loop restricted to the first n entries, with the
minimal-child selection (j2 < n && Less(j2, j1)) inlined into two branches.
The iteration budget makes the loop structurally recursive; the index i
strictly increases while staying below n, so a budget of at least n - i
(see down_fuel) is never exhausted and the budget-0 branch is dead code. -/
def down (fuel : ℕ) (l : List HeapElem) (i n : ℕ) : List HeapElem :=
  match fuel with
  | 0 => l
  | fuel + 1 =>
      if 2*i+1 < n then
        if 2*i+2 < n ∧ (nth l (2*i+2)).vf < (nth l (2*i+1)).vf then
          if (nth l (2*i+2)).vf < (nth l i).vf then down fuel (hswap l i (2*i+2)) (2*i+2) n
          else l
        else
          if (nth l (2*i+1)).vf < (nth l i).vf then down fuel (hswap l i (2*i+1)) (2*i+1) n
          else l
      else l

/-- heap.Push: append the element, then sift it up from the last index. -/
def heapPush (l : List HeapElem) (x : HeapElem) : List HeapElem :=
  up (l.length + 1) (l ++ [x]) l.length

/-- heap.Pop: swap the root with the last entry, sift the new root down within
the shortened region, then remove and return the last entry (the old root). -/
def heapPop (l : List HeapElem) : HeapElem × List HeapElem :=
  let n := l.length - 1
  let l2 := down n (hswap l 0 n) 0 n
  (nth l2 n, l2.take n)

/-- The binary min-heap ordering on the first n entries: every child is at
least its parent in the virtualFinish order. -/
def HeapOrderedN (l : List HeapElem) (n : ℕ) : Prop :=
  ∀ c, c < n → 0 < c → (nth l ((c-1)/2)).vf ≤ (nth l c).vf

/-- The binary min-heap ordering on the whole slice. -/
def HeapOrdered (l : List HeapElem) : Prop := HeapOrderedN l l.length

instance (l : List HeapElem) (n : ℕ) : Decidable (HeapOrderedN l n) := by
  unfold HeapOrderedN; infer_instance

/-- Request (main.go lines 38-45); the Done channel is modelled by its serial
number. -/
structure Request where
  ID : String
  QueueID : String
  Size : ℤ
  Timestamp : ℤ
  serial : ℕ
  deriving DecidableEq

/-- Queue (main.go lines 24-36). -/
structure Queue where
  id : String
  weight : ℚ
  virtualFinish : ℚ
  requests : List Request
  active : Bool
  processed : ℤ
  totalDelay : ℤ
  lastService : ℤ
  deriving DecidableEq

/-- WFQScheduler (main.go lines 12-22).  nextSerial counts the Done channels
allocated so far (equivalently, the successful Enqueue calls); fulfilled is
the trace of serials on whose Done channel a value was sent. -/
structure WFQScheduler where
  queues : List (String × Queue)
  heap : List HeapElem
  virtualTime : ℚ
  stopped : Bool
  nextSerial : ℕ
  fulfilled : List ℕ
  deriving DecidableEq

/-- Go map lookup wfq.queues[id]. -/
def findQ : List (String × Queue) → String → Option Queue
  | [], _ => none
  | (k, q) :: rest, id => if k = id then some q else findQ rest id

/-- Go map update wfq.queues with the entry at id replaced (mutation through
the pointer held in the map). -/
def setQ : List (String × Queue) → String → Queue → List (String × Queue)
  | [], _, _ => []
  | (k, q) :: rest, id, q1 => if k = id then (k, q1) :: rest else (k, q) :: setQ rest id q1

/-- NewWFQScheduler (main.go lines 50-65). -/
def NewWFQScheduler : WFQScheduler :=
  { queues := [], heap := [], virtualTime := 0, stopped := false,
    nextSerial := 0, fulfilled := [] }

/-- The queue record built by AddQueue (main.go lines 76-81): zero-valued
statistics, empty backlog, inactive, lastService set to time.Now. -/
def freshQueue (id : String) (weight : ℚ) (now : ℤ) : Queue :=
  { id := id, weight := weight, virtualFinish := 0, requests := [],
    active := false, processed := 0, totalDelay := 0, lastService := now }

/-- AddQueue (main.go lines 67-84): a silent no-op on an existing id, otherwise
registers a fresh inactive queue with empty backlog.  The weight is stored
unchecked. -/
def AddQueue (s : WFQScheduler) (id : String) (weight : ℚ) (now : ℤ) : WFQScheduler :=
  match findQ s.queues id with
  | some _ => s
  | none => { s with queues := s.queues ++ [(id, freshQueue id weight now)] }

/-- The request record built by Enqueue (main.go lines 96-102), with the fresh
Done channel identified by the given serial. -/
def mkRequest (qid rid : String) (size now : ℤ) (serial : ℕ) : Request :=
  { ID := rid, QueueID := qid, Size := size, Timestamp := now, serial := serial }

/-- Enqueue (main.go lines 86-120).  Returns none exactly where Go returns the
error "queue %s not found"; on success returns the serial of the fresh Done
channel.  The non-blocking send on wfq.processor only wakes the process loop
and has no further state effect. -/
def Enqueue (s : WFQScheduler) (queueID requestID : String) (size : ℤ) (now : ℤ) :
    Option ℕ × WFQScheduler :=
  match findQ s.queues queueID with
  | none => (none, s)
  | some queue =>
      let request : Request :=
        { ID := requestID, QueueID := queueID, Size := size, Timestamp := now,
          serial := s.nextSerial }
      let q1 := { queue with requests := queue.requests ++ [request] }
      if queue.active then
        (some s.nextSerial,
         { s with queues := setQ s.queues queueID q1, nextSerial := s.nextSerial + 1 })
      else
        let q2 := { q1 with
          active := true
          virtualFinish := s.virtualTime + (size : ℚ) / queue.weight }
        (some s.nextSerial,
         { s with queues := setQ s.queues queueID q2,
                  heap := heapPush s.heap ⟨q2.virtualFinish, queueID⟩,
                  nextSerial := s.nextSerial + 1 })

/-- processNext (main.go lines 140-185).  The branch for a missing map entry
cannot arise in Go, where the heap stores pointers; it merely discards the
popped entry. -/
def processNext (s : WFQScheduler) (now : ℤ) : WFQScheduler :=
  if s.heap.length = 0 then s
  else
    let e := (heapPop s.heap).1
    let rest := (heapPop s.heap).2
    match findQ s.queues e.qid with
    | none => { s with heap := rest }
    | some queue =>
        match queue.requests with
        | [] =>
            { s with heap := rest,
                     queues := setQ s.queues e.qid { queue with active := false } }
        | request :: remaining =>
            let vt1 := max s.virtualTime queue.virtualFinish
            let q1 := { queue with
              requests := remaining
              processed := queue.processed + 1
              totalDelay := queue.totalDelay + (now - request.Timestamp)
              lastService := now }
            match remaining with
            | [] =>
                { s with heap := rest,
                         queues := setQ s.queues e.qid { q1 with active := false },
                         virtualTime := vt1,
                         fulfilled := s.fulfilled ++ [request.serial] }
            | nextRequest :: _ =>
                let q2 := { q1 with
                  virtualFinish := vt1 + (nextRequest.Size : ℚ) / queue.weight }
                { s with heap := heapPush rest ⟨q2.virtualFinish, e.qid⟩,
                         queues := setQ s.queues e.qid q2,
                         virtualTime := vt1,
                         fulfilled := s.fulfilled ++ [request.serial] }

/-- One activation of the processLoop body (main.go lines 122-138): each wake
up, whether by the 10ms ticker or by the processor poke channel, performs
exactly one call to processNext. -/
def processLoopActivation (s : WFQScheduler) (now : ℤ) : WFQScheduler :=
  processNext s now

/-- The per-queue snapshot assembled by GetStats (main.go lines 194-210). -/
structure QueueStats where
  weight : ℚ
  processed : ℤ
  pending : ℕ
  avgDelay : ℤ
  lastService : ℤ
  active : Bool
  deriving DecidableEq

/-- GetStats body for one queue; time.Duration division on int64 truncates
toward zero, which is Int.tdiv. -/
def statsOf (q : Queue) : QueueStats :=
  { weight := q.weight, processed := q.processed, pending := q.requests.length,
    avgDelay := if q.processed > 0 then Int.tdiv q.totalDelay q.processed else 0,
    lastService := q.lastService, active := q.active }

/-- GetStats (main.go lines 187-214). -/
def GetStats (s : WFQScheduler) : List (String × QueueStats) :=
  s.queues.map (fun p => (p.1, statsOf p.2))

/-- GetStats viewed as a state-passing operation: it mutates nothing. -/
def GetStatsOp (s : WFQScheduler) : List (String × QueueStats) × WFQScheduler :=
  (GetStats s, s)

/-- Stop (main.go lines 216-219): closes the done channel, terminating the
process loop; no other field is touched. -/
def Stop (s : WFQScheduler) : WFQScheduler := { s with stopped := true }

/-- Lookup in a GetStats snapshot, analogous to findQ. -/
def findStats : List (String × QueueStats) → String → Option QueueStats
  | [], _ => none
  | (k, st) :: rest, id => if k = id then some st else findStats rest id

/-- Serials of all requests sitting in the pending queues of a registry. -/
def pendingOf (qs : List (String × Queue)) : List ℕ :=
  qs.flatMap (fun p => p.2.requests.map Request.serial)

/-- Serials of all requests currently sitting in some pending queue. -/
def pendingSerials (s : WFQScheduler) : List ℕ :=
  pendingOf s.queues

/-- Sum of the processed counters of a registry. -/
def sumOf (qs : List (String × Queue)) : ℤ :=
  (qs.map (fun p => p.2.processed)).sum

/-- Sum of the per-class processed counters. -/
def sumProcessed (s : WFQScheduler) : ℤ :=
  sumOf s.queues

/-- The queue ids currently in the heap. -/
def heapQids (s : WFQScheduler) : List String :=
  s.heap.map HeapElem.qid

/-- One atomic operation of the scheduler, as serialised by its mutex. -/
inductive Step : WFQScheduler → WFQScheduler → Prop
  | addQueue (s : WFQScheduler) (id : String) (w : ℚ) (now : ℤ) :
      Step s (AddQueue s id w now)
  | enqueue (s : WFQScheduler) (qid rid : String) (size : ℤ) (now : ℤ) :
      Step s (Enqueue s qid rid size now).2
  | processNext (s : WFQScheduler) (now : ℤ) :
      Step s (processNext s now)
  | getStats (s : WFQScheduler) :
      Step s (GetStatsOp s).2
  | stop (s : WFQScheduler) :
      Step s (Stop s)

/-- States reachable from a fresh scheduler by any interleaving of operations. -/
def Reachable (s : WFQScheduler) : Prop :=
  Relation.ReflTransGen Step NewWFQScheduler s

/-- Invariant of the sift-up loop: every parent/child edge is ordered except
possibly the edge into the hole j, and the children of j are bounded below by
the parent of j, so the parent may move down into the hole. -/
structure UpState (l : List HeapElem) (j : ℕ) : Prop where
  bounded : j < l.length
  heap : ∀ c, c < l.length → 0 < c → c ≠ j → (nth l ((c-1)/2)).vf ≤ (nth l c).vf
  lower : ∀ c, c < l.length → 0 < c → (c-1)/2 = j → 0 < j →
    (nth l ((j-1)/2)).vf ≤ (nth l c).vf

/-- Invariant of the sift-down loop over the region of the first n entries:
every edge with parent inside the region is ordered except the edges out of
the hole i, and the children of i are bounded below by the parent of i. -/
structure DownState (l : List HeapElem) (i n : ℕ) : Prop where
  hn : n ≤ l.length
  heap : ∀ c, c < n → 0 < c → (c-1)/2 ≠ i → (nth l ((c-1)/2)).vf ≤ (nth l c).vf
  lower : ∀ c, c < n → 0 < c → (c-1)/2 = i → 0 < i →
    (nth l ((i-1)/2)).vf ≤ (nth l c).vf

/-- The state invariant of the scheduler, preserved by every operation:
the virtual clock is non-negative; registry keys are distinct; every heap
entry points at a registered, active queue whose virtualFinish equals the
stored key; a queue id occurs in the heap once when the queue is active and
never otherwise; a queue is active exactly when its backlog is non-empty;
the heap slice is min-heap ordered; pending and fulfilled serials are below
the allocation counter, pairwise distinct, and account for every allocated
serial; and the processed counters sum to the number of fulfilments. -/
structure Inv (s : WFQScheduler) : Prop where
  vtNonneg : 0 ≤ s.virtualTime
  keysNodup : (s.queues.map Prod.fst).Nodup
  heapLive : ∀ e ∈ s.heap, ∃ q, findQ s.queues e.qid = some q ∧
    q.virtualFinish = e.vf ∧ q.active = true
  heapCount : ∀ k q, findQ s.queues k = some q →
    (s.heap.map HeapElem.qid).count k = (if q.active = true then 1 else 0)
  activePending : ∀ k q, findQ s.queues k = some q → (q.active = true ↔ q.requests ≠ [])
  ordered : HeapOrdered s.heap
  serialBound : ∀ m ∈ pendingSerials s ++ s.fulfilled, m < s.nextSerial
  serialNodup : (pendingSerials s ++ s.fulfilled).Nodup
  serialCount : (pendingSerials s).length + s.fulfilled.length = s.nextSerial
  processedSum : sumProcessed s = (s.fulfilled.length : ℤ)

/-- A scheduler with one registered class a of weight 1. -/
def demoRegistered : WFQScheduler := AddQueue NewWFQScheduler "a" 1 0

/-- demoRegistered after one Enqueue of a size-1 request. -/
def demoOne : WFQScheduler := (Enqueue demoRegistered "a" "r" 1 0).2

/-- demoOne after its single request has been dispatched. -/
def demoDone : WFQScheduler := processNext demoOne 0

/-- demoRegistered with two size-1 requests queued in class a. -/
def demoTwo : WFQScheduler :=
  (Enqueue (Enqueue demoRegistered "a" "r1" 1 0).2 "a" "r2" 1 0).2

/-- Classes a, b, c registered in that order, all of weight 1. -/
def demoABC : WFQScheduler :=
  AddQueue (AddQueue (AddQueue NewWFQScheduler "a" 1 0) "b" 1 0) "c" 1 0

/-- demoABC with one size-1 request in each class; all three classes obtain
the same virtualFinish 1. -/
def demoABCLoaded : WFQScheduler :=
  (Enqueue ((Enqueue ((Enqueue demoABC "a" "ra" 1 0).2) "b" "rb" 1 0).2) "c" "rc" 1 0).2

/-- demoABCLoaded after one dispatch (which serves class a). -/
def demoTie : WFQScheduler := processNext demoABCLoaded 0

/-! ### Lemmas about the embedded container/heap operations -/

theorem nth_eq_getElem (l : List HeapElem) (i : ℕ) (h : i < l.length) :
    nth l i = l[i] := List.getD_eq_getElem l _ h

theorem length_hswap (l : List HeapElem) (i j : ℕ) : (hswap l i j).length = l.length := by
  simp [hswap]

theorem nth_hswap_snd (l : List HeapElem) (i j : ℕ) (hj : j < l.length) :
    nth (hswap l i j) j = nth l i := by
  unfold hswap nth
  rw [List.getD_eq_getElem?_getD, List.getElem?_set_self (by simpa using hj)]
  rfl

theorem nth_hswap_fst (l : List HeapElem) (i j : ℕ) (hi : i < l.length) (hj : j < l.length) :
    nth (hswap l i j) i = nth l j := by
  by_cases hij : i = j
  · subst hij; exact (nth_hswap_snd l i i hi)
  · unfold hswap nth
    rw [List.getD_eq_getElem?_getD, List.getElem?_set_ne (fun h => hij h.symm),
      List.getElem?_set_self hi]
    rfl

theorem nth_hswap_other (l : List HeapElem) (i j k : ℕ) (h1 : k ≠ i) (h2 : k ≠ j) :
    nth (hswap l i j) k = nth l k := by
  unfold hswap nth
  rw [List.getD_eq_getElem?_getD, List.getElem?_set_ne (Ne.symm h2),
    List.getElem?_set_ne (Ne.symm h1), ← List.getD_eq_getElem?_getD]

theorem getD_cons_swap : ∀ (t : List HeapElem) (k : ℕ) (a : HeapElem), k < t.length →
    List.Perm (nth t k :: t.set k a) (a :: t)
  | b :: s, 0, a, _ => by
      simp only [nth, List.getD_cons_zero, List.set_cons_zero]
      exact List.Perm.swap a b s
  | b :: s, k+1, a, h => by
      simp only [nth, List.getD_cons_succ, List.set_cons_succ]
      exact ((List.Perm.swap b (nth s k) _).trans
        (List.Perm.cons b (getD_cons_swap s k a (by simpa using h)))).trans
        (List.Perm.swap a b s)

theorem hswap_perm : ∀ (l : List HeapElem) (i j : ℕ), i < l.length → j < l.length →
    List.Perm (hswap l i j) l
  | a :: t, 0, 0, _, _ => by
      simp only [hswap, nth, List.getD_cons_zero, List.set_cons_zero]
      exact List.Perm.refl _
  | a :: t, 0, j+1, _, hj => by
      simp only [hswap, nth, List.getD_cons_zero, List.getD_cons_succ,
        List.set_cons_zero, List.set_cons_succ]
      exact getD_cons_swap t j a (by simpa using hj)
  | a :: t, i+1, 0, hi, _ => by
      simp only [hswap, nth, List.getD_cons_zero, List.getD_cons_succ,
        List.set_cons_zero, List.set_cons_succ]
      exact getD_cons_swap t i a (by simpa using hi)
  | a :: t, i+1, j+1, hi, hj => by
      simp only [hswap, nth, List.getD_cons_succ, List.set_cons_succ]
      exact List.Perm.cons a (hswap_perm t i j (by simpa using hi) (by simpa using hj))

theorem up_fuel : ∀ (f g : ℕ) (l : List HeapElem) (j : ℕ), j < f → j < g →
    up f l j = up g l j := by
  intro f
  induction f with
  | zero => intro g l j hf; omega
  | succ f ih =>
      intro g l j hf hg
      match g, hg with
      | g + 1, hg =>
        simp only [up]
        by_cases h0 : j = 0
        · simp [h0]
        · simp only [if_neg h0]
          by_cases hlt : (nth l j).vf < (nth l ((j-1)/2)).vf
          · simp only [if_pos hlt]
            exact ih g _ _ (by omega) (by omega)
          · simp [hlt]

theorem down_fuel : ∀ (f g : ℕ) (l : List HeapElem) (i n : ℕ), n - i ≤ f → n - i ≤ g →
    down f l i n = down g l i n := by
  intro f
  induction f with
  | zero =>
      intro g l i n hf _
      have hni : ¬ (2*i+1 < n) := by omega
      cases g with
      | zero => rfl
      | succ g => simp [down, hni]
  | succ f ih =>
      intro g l i n hf hg
      cases g with
      | zero =>
          have hni : ¬ (2*i+1 < n) := by omega
          simp [down, hni]
      | succ g =>
          simp only [down]
          by_cases h1 : 2*i+1 < n
          · simp only [if_pos h1]
            by_cases h2 : 2*i+2 < n ∧ (nth l (2*i+2)).vf < (nth l (2*i+1)).vf
            · simp only [if_pos h2]
              by_cases h3 : (nth l (2*i+2)).vf < (nth l i).vf
              · simp only [if_pos h3]
                exact ih g _ _ _ (by omega) (by omega)
              · simp [h3]
            · simp only [if_neg h2]
              by_cases h3 : (nth l (2*i+1)).vf < (nth l i).vf
              · simp only [if_pos h3]
                exact ih g _ _ _ (by omega) (by omega)
              · simp [h3]
          · simp [h1]

theorem up_perm : ∀ (f : ℕ) (l : List HeapElem) (j : ℕ), j < l.length →
    List.Perm (up f l j) l := by
  intro f
  induction f with
  | zero => intro l j _; exact List.Perm.refl _
  | succ f ih =>
      intro l j hj
      simp only [up]
      by_cases h0 : j = 0
      · simp only [if_pos h0]; exact List.Perm.refl _
      · simp only [if_neg h0]
        by_cases hlt : (nth l j).vf < (nth l ((j-1)/2)).vf
        · simp only [if_pos hlt]
          have hp : (j-1)/2 < l.length := by omega
          have hlen : (hswap l ((j-1)/2) j).length = l.length := length_hswap ..
          exact (ih _ _ (by omega)).trans (hswap_perm l _ j hp hj)
        · simp only [if_neg hlt]; exact List.Perm.refl _

theorem up_length (f : ℕ) (l : List HeapElem) (j : ℕ) (hj : j < l.length) :
    (up f l j).length = l.length := (up_perm f l j hj).length_eq

theorem down_perm : ∀ (f : ℕ) (l : List HeapElem) (i n : ℕ), n ≤ l.length →
    List.Perm (down f l i n) l := by
  intro f
  induction f with
  | zero => intro l i n _; exact List.Perm.refl _
  | succ f ih =>
      intro l i n hn
      simp only [down]
      by_cases h1 : 2*i+1 < n
      · simp only [if_pos h1]
        have hi : i < l.length := by omega
        by_cases h2 : 2*i+2 < n ∧ (nth l (2*i+2)).vf < (nth l (2*i+1)).vf
        · simp only [if_pos h2]
          by_cases h3 : (nth l (2*i+2)).vf < (nth l i).vf
          · simp only [if_pos h3]
            exact (ih _ _ _ (by rw [length_hswap]; exact hn)).trans
              (hswap_perm l i _ hi (by omega))
          · simp only [if_neg h3]; exact List.Perm.refl _
        · simp only [if_neg h2]
          by_cases h3 : (nth l (2*i+1)).vf < (nth l i).vf
          · simp only [if_pos h3]
            exact (ih _ _ _ (by rw [length_hswap]; exact hn)).trans
              (hswap_perm l i _ hi (by omega))
          · simp only [if_neg h3]; exact List.Perm.refl _
      · simp only [if_neg h1]; exact List.Perm.refl _

theorem down_length (f : ℕ) (l : List HeapElem) (i n : ℕ) (hn : n ≤ l.length) :
    (down f l i n).length = l.length := (down_perm f l i n hn).length_eq

theorem down_untouched : ∀ (f : ℕ) (l : List HeapElem) (i n k : ℕ), n ≤ k →
    nth (down f l i n) k = nth l k := by
  intro f
  induction f with
  | zero => intro l i n k _; rfl
  | succ f ih =>
      intro l i n k hk
      simp only [down]
      by_cases h1 : 2*i+1 < n
      · simp only [if_pos h1]
        by_cases h2 : 2*i+2 < n ∧ (nth l (2*i+2)).vf < (nth l (2*i+1)).vf
        · simp only [if_pos h2]
          by_cases h3 : (nth l (2*i+2)).vf < (nth l i).vf
          · simp only [if_pos h3]
            rw [ih _ _ _ _ hk, nth_hswap_other l _ _ _ (by omega) (by omega)]
          · simp [h3]
        · simp only [if_neg h2]
          by_cases h3 : (nth l (2*i+1)).vf < (nth l i).vf
          · simp only [if_pos h3]
            rw [ih _ _ _ _ hk, nth_hswap_other l _ _ _ (by omega) (by omega)]
          · simp [h3]
      · simp [h1]

theorem nth_take (l : List HeapElem) (n k : ℕ) (h : k < n) : nth (l.take n) k = nth l k := by
  simp [nth, List.getD_eq_getElem?_getD, List.getElem?_take, h]

theorem upstate_step (l : List HeapElem) (j : ℕ) (h : UpState l j) (hj0 : j ≠ 0)
    (hlt : (nth l j).vf < (nth l ((j-1)/2)).vf) :
    UpState (hswap l ((j-1)/2) j) ((j-1)/2) := by
  obtain ⟨hj, hheap, hlow⟩ := h
  have hij : (j-1)/2 < j := by omega
  have hi : (j-1)/2 < l.length := by omega
  have e1 : nth (hswap l ((j-1)/2) j) ((j-1)/2) = nth l j := nth_hswap_fst l _ j hi hj
  have e2 : nth (hswap l ((j-1)/2) j) j = nth l ((j-1)/2) := nth_hswap_snd l _ j hj
  have e3 : ∀ k, k ≠ (j-1)/2 → k ≠ j → nth (hswap l ((j-1)/2) j) k = nth l k :=
    fun k h1 h2 => nth_hswap_other l _ j k h1 h2
  refine ⟨by rw [length_hswap]; exact hi, ?_, ?_⟩
  · intro c hc hc0 hci
    rw [length_hswap] at hc
    by_cases hcj : c = j
    · subst hcj
      rw [e1, e2]
      exact hlt.le
    · have ec : nth (hswap l ((j-1)/2) j) c = nth l c := e3 c hci hcj
      by_cases hpi : (c-1)/2 = (j-1)/2
      · rw [hpi, e1, ec]
        have hc2 : (nth l ((c-1)/2)).vf ≤ (nth l c).vf := hheap c hc hc0 hcj
        rw [hpi] at hc2
        exact hlt.le.trans hc2
      · by_cases hpj : (c-1)/2 = j
        · rw [hpj, e2, ec]
          exact hlow c hc hc0 hpj (by omega)
        · rw [e3 _ hpi hpj, ec]
          exact hheap c hc hc0 hcj
  · intro c hc hc0 hpc hi0
    rw [length_hswap] at hc
    have hp1 : ((j-1)/2 - 1)/2 ≠ (j-1)/2 := by omega
    have hp2 : ((j-1)/2 - 1)/2 ≠ j := by omega
    rw [e3 _ hp1 hp2]
    have hedge : (nth l (((j-1)/2 - 1)/2)).vf ≤ (nth l ((j-1)/2)).vf :=
      hheap ((j-1)/2) hi hi0 (by omega)
    by_cases hcj : c = j
    · subst hcj
      rw [e2]
      exact hedge
    · have hcne : c ≠ (j-1)/2 := by omega
      rw [e3 c hcne hcj]
      have hc2 : (nth l ((c-1)/2)).vf ≤ (nth l c).vf := hheap c hc hc0 hcj
      rw [hpc] at hc2
      exact hedge.trans hc2

theorem up_ordered : ∀ (f : ℕ) (l : List HeapElem) (j : ℕ), j < f → UpState l j →
    HeapOrdered (up f l j) := by
  intro f
  induction f with
  | zero => intro l j hf _; omega
  | succ f ih =>
      intro l j _ h
      simp only [up]
      by_cases h0 : j = 0
      · simp only [if_pos h0]
        intro c hc hc0
        exact h.heap c hc hc0 (by omega)
      · simp only [if_neg h0]
        by_cases hlt : (nth l j).vf < (nth l ((j-1)/2)).vf
        · simp only [if_pos hlt]
          exact ih _ _ (by omega) (upstate_step l j h h0 hlt)
        · simp only [if_neg hlt]
          intro c hc hc0
          by_cases hcj : c = j
          · subst hcj; exact le_of_not_lt hlt
          · exact h.heap c hc hc0 hcj

theorem upstate_push (l : List HeapElem) (x : HeapElem) (hord : HeapOrdered l) :
    UpState (l ++ [x]) l.length := by
  refine ⟨by simp, ?_, ?_⟩
  · intro c hc hc0 hcj
    have hc1 : c < l.length := by
      simp only [List.length_append, List.length_cons, List.length_nil] at hc
      omega
    have hp : (c-1)/2 < l.length := by omega
    simp only [nth]
    rw [List.getD_append _ _ _ _ hc1, List.getD_append _ _ _ _ hp]
    exact hord c hc1 hc0
  · intro c hc hc0 hpc
    simp only [List.length_append, List.length_cons, List.length_nil] at hc
    omega

theorem heapPush_ordered (l : List HeapElem) (x : HeapElem) (hord : HeapOrdered l) :
    HeapOrdered (heapPush l x) :=
  up_ordered (l.length + 1) (l ++ [x]) l.length (by omega) (upstate_push l x hord)

theorem heapPush_perm (l : List HeapElem) (x : HeapElem) :
    List.Perm (heapPush l x) (x :: l) :=
  (up_perm _ _ _ (by simp)).trans (List.perm_append_singleton x l)

theorem downstate_step (l : List HeapElem) (i n j : ℕ) (hds : DownState l i n)
    (hj : j = 2*i+1 ∨ j = 2*i+2) (hjn : j < n)
    (hmin : ∀ j2, (j2 = 2*i+1 ∨ j2 = 2*i+2) → j2 < n → (nth l j).vf ≤ (nth l j2).vf)
    (hlt : (nth l j).vf < (nth l i).vf) :
    DownState (hswap l i j) j n := by
  obtain ⟨hn, hheap, hlow⟩ := hds
  have hij : i < j := by omega
  have hjl : j < l.length := by omega
  have hil : i < l.length := by omega
  have e1 : nth (hswap l i j) i = nth l j := nth_hswap_fst l i j hil hjl
  have e2 : nth (hswap l i j) j = nth l i := nth_hswap_snd l i j hjl
  have e3 : ∀ k, k ≠ i → k ≠ j → nth (hswap l i j) k = nth l k :=
    fun k h1 h2 => nth_hswap_other l i j k h1 h2
  refine ⟨by rw [length_hswap]; exact hn, ?_, ?_⟩
  · intro c hc hc0 hcj
    by_cases hci : c = i
    · subst hci
      have hp1 : (c-1)/2 ≠ c := by omega
      have hp2 : (c-1)/2 ≠ j := by omega
      rw [e3 _ hp1 hp2, e1]
      exact hlow j hjn (by omega) (by omega) hc0
    · by_cases hcjj : c = j
      · subst hcjj
        have hpi : (c-1)/2 = i := by omega
        rw [hpi, e1, e2]
        exact hlt.le
      · have ec : nth (hswap l i j) c = nth l c := e3 c hci hcjj
        by_cases hpi : (c-1)/2 = i
        · have hcc : c = 2*i+1 ∨ c = 2*i+2 := by omega
          rw [hpi, e1, ec]
          exact hmin c hcc hc
        · rw [e3 _ hpi hcj, ec]
          exact hheap c hc hc0 hpi
  · intro c hc hc0 hpc _
    have hcj : c ≠ j := by omega
    have hci : c ≠ i := by omega
    have hpi : (j-1)/2 = i := by omega
    rw [hpi, e1, e3 c hci hcj]
    have hc2 : (nth l ((c-1)/2)).vf ≤ (nth l c).vf := hheap c hc hc0 (by omega)
    rw [hpc] at hc2
    exact hc2

theorem down_ordered : ∀ (f : ℕ) (l : List HeapElem) (i n : ℕ), n - i ≤ f →
    DownState l i n → HeapOrderedN (down f l i n) n := by
  intro f
  induction f with
  | zero =>
      intro l i n hf hds
      simp only [down]
      intro c hc hc0
      exact hds.heap c hc hc0 (by omega)
  | succ f ih =>
      intro l i n hf hds
      simp only [down]
      by_cases h1 : 2*i+1 < n
      · simp only [if_pos h1]
        by_cases h2 : 2*i+2 < n ∧ (nth l (2*i+2)).vf < (nth l (2*i+1)).vf
        · simp only [if_pos h2]
          by_cases h3 : (nth l (2*i+2)).vf < (nth l i).vf
          · simp only [if_pos h3]
            refine ih _ _ _ (by omega)
              (downstate_step l i n (2*i+2) hds (Or.inr rfl) h2.1 ?_ h3)
            intro j2 hj2 hj2n
            rcases hj2 with h | h
            · subst h; exact h2.2.le
            · subst h; exact le_refl _
          · simp only [if_neg h3]
            intro c hc hc0
            by_cases hpi : (c-1)/2 = i
            · have hcc : c = 2*i+1 ∨ c = 2*i+2 := by omega
              rw [hpi]
              rcases hcc with h | h
              · subst h; exact (le_of_not_lt h3).trans h2.2.le
              · subst h; exact le_of_not_lt h3
            · exact hds.heap c hc hc0 hpi
        · simp only [if_neg h2]
          by_cases h3 : (nth l (2*i+1)).vf < (nth l i).vf
          · simp only [if_pos h3]
            refine ih _ _ _ (by omega)
              (downstate_step l i n (2*i+1) hds (Or.inl rfl) h1 ?_ h3)
            intro j2 hj2 hj2n
            rcases hj2 with h | h
            · subst h; exact le_refl _
            · subst h
              exact le_of_not_lt (fun hlt2 => h2 ⟨hj2n, hlt2⟩)
          · simp only [if_neg h3]
            intro c hc hc0
            by_cases hpi : (c-1)/2 = i
            · have hcc : c = 2*i+1 ∨ c = 2*i+2 := by omega
              rw [hpi]
              rcases hcc with h | h
              · subst h; exact le_of_not_lt h3
              · subst h
                exact (le_of_not_lt h3).trans
                  (le_of_not_lt (fun hlt2 => h2 ⟨hc, hlt2⟩))
            · exact hds.heap c hc hc0 hpi
      · simp only [if_neg h1]
        intro c hc hc0
        by_cases hpi : (c-1)/2 = i
        · omega
        · exact hds.heap c hc hc0 hpi

theorem heapPop_fst (l : List HeapElem) (hl : l ≠ []) : (heapPop l).1 = nth l 0 := by
  have hlen : 0 < l.length := List.length_pos.mpr hl
  show nth (down (l.length - 1) (hswap l 0 (l.length - 1)) 0 (l.length - 1)) (l.length - 1)
      = nth l 0
  rw [down_untouched _ _ _ _ _ (le_refl _), nth_hswap_snd l 0 _ (by omega)]

theorem heapPop_perm (l : List HeapElem) (hl : l ≠ []) :
    List.Perm l ((heapPop l).1 :: (heapPop l).2) := by
  have hlen : 0 < l.length := List.length_pos.mpr hl
  set n := l.length - 1 with hndef
  set l2 := down n (hswap l 0 n) 0 n with hl2def
  have hlen2 : l2.length = l.length := by
    rw [hl2def, down_length _ _ _ _ (by rw [length_hswap]; omega), length_hswap]
  have hperm : List.Perm l2 l := by
    rw [hl2def]
    exact (down_perm _ _ _ _ (by rw [length_hswap]; omega)).trans
      (hswap_perm l 0 n (by omega) (by omega))
  have hd : l2.drop n = [nth l2 n] := by
    have hnl : n < l2.length := by omega
    rw [List.drop_eq_getElem_cons hnl, List.drop_eq_nil_of_le (by omega),
      nth_eq_getElem l2 n hnl]
  have hsplit : l2 = l2.take n ++ [nth l2 n] := by
    conv_lhs => rw [← List.take_append_drop n l2]
    rw [hd]
  have hfst : (heapPop l).1 = nth l2 n := rfl
  have hsnd : (heapPop l).2 = l2.take n := rfl
  rw [hfst, hsnd]
  have key : List.Perm l2 (nth l2 n :: l2.take n) := by
    conv_lhs => rw [hsplit]
    exact List.perm_append_singleton _ _
  exact hperm.symm.trans key

theorem heapPop_ordered (l : List HeapElem) (hord : HeapOrdered l) :
    HeapOrdered (heapPop l).2 := by
  rcases eq_or_ne l [] with rfl | hl
  · intro c hc hc0
    simp [heapPop, down, hswap, nth] at hc
  · have hlen : 0 < l.length := List.length_pos.mpr hl
    set n := l.length - 1 with hndef
    have hds : DownState (hswap l 0 n) 0 n := by
      refine ⟨by rw [length_hswap]; omega, ?_, ?_⟩
      · intro c hc hc0 hpi
        have hcn : c ≠ n := by omega
        have hpn : (c-1)/2 ≠ n := by omega
        rw [nth_hswap_other l 0 n c (by omega) hcn,
          nth_hswap_other l 0 n _ hpi hpn]
        exact hord c (by omega) hc0
      · intro c hc hc0 hpc hi0
        omega
    have hN : HeapOrderedN (down n (hswap l 0 n) 0 n) n :=
      down_ordered n _ 0 n (by omega) hds
    have hlen2 : (down n (hswap l 0 n) 0 n).length = l.length := by
      rw [down_length _ _ _ _ (by rw [length_hswap]; omega), length_hswap]
    intro c hc hc0
    have hsnd : (heapPop l).2 = (down n (hswap l 0 n) 0 n).take n := rfl
    rw [hsnd] at hc ⊢
    rw [List.length_take] at hc
    have hcn : c < n := by omega
    rw [nth_take _ _ _ hcn, nth_take _ _ _ (by omega)]
    exact hN c hcn hc0

theorem heapPop_length (l : List HeapElem) (hl : l ≠ []) :
    (heapPop l).2.length = l.length - 1 := by
  have hlen : 0 < l.length := List.length_pos.mpr hl
  have hlen2 : (down (l.length - 1) (hswap l 0 (l.length - 1)) 0 (l.length - 1)).length
      = l.length := by
    rw [down_length _ _ _ _ (by rw [length_hswap]; omega), length_hswap]
  show ((down (l.length - 1) (hswap l 0 (l.length - 1)) 0 (l.length - 1)).take
    (l.length - 1)).length = l.length - 1
  rw [List.length_take]
  omega

theorem nth_zero_le (l : List HeapElem) (hord : HeapOrdered l) :
    ∀ c, c < l.length → (nth l 0).vf ≤ (nth l c).vf := by
  intro c
  induction c using Nat.strong_induction_on with
  | _ c ih =>
      intro hc
      rcases Nat.eq_zero_or_pos c with rfl | hc0
      · exact le_refl _
      · exact (ih ((c-1)/2) (by omega) (by omega)).trans (hord c hc hc0)

theorem heapPop_min (l : List HeapElem) (hord : HeapOrdered l) (hl : l ≠ []) :
    ∀ e ∈ l, ((heapPop l).1).vf ≤ e.vf := by
  intro e he
  obtain ⟨c, hc, rfl⟩ := List.mem_iff_getElem.1 he
  rw [heapPop_fst l hl, ← nth_eq_getElem l c hc]
  exact nth_zero_le l hord c hc

/-! ### Lemmas about the association list modelling the queues map -/

theorem findQ_append_left {qs rs : List (String × Queue)} {k : String} {q : Queue}
    (h : findQ qs k = some q) : findQ (qs ++ rs) k = some q := by
  induction qs with
  | nil => simp [findQ] at h
  | cons p rest ih =>
      obtain ⟨k0, q0⟩ := p
      simp only [findQ, List.cons_append] at h ⊢
      by_cases hk : k0 = k
      · simpa [hk] using h
      · rw [if_neg hk] at h ⊢
        exact ih h

theorem findQ_append_right {qs : List (String × Queue)} {k : String}
    (h : findQ qs k = none) (rs : List (String × Queue)) :
    findQ (qs ++ rs) k = findQ rs k := by
  induction qs with
  | nil => simp
  | cons p rest ih =>
      obtain ⟨k0, q0⟩ := p
      simp only [findQ, List.cons_append] at h ⊢
      by_cases hk : k0 = k
      · simp [hk] at h
      · rw [if_neg hk] at h ⊢
        exact ih h

theorem findQ_eq_none_iff {qs : List (String × Queue)} {k : String} :
    findQ qs k = none ↔ k ∉ qs.map Prod.fst := by
  induction qs with
  | nil => simp [findQ]
  | cons p rest ih =>
      obtain ⟨k0, q0⟩ := p
      simp only [findQ, List.map_cons, List.mem_cons]
      by_cases hk : k0 = k
      · simp [hk]
      · simp [hk, ih, Ne.symm hk]

theorem findQ_mem {qs : List (String × Queue)} {k : String} {q : Queue}
    (h : findQ qs k = some q) : (k, q) ∈ qs := by
  induction qs with
  | nil => simp [findQ] at h
  | cons p rest ih =>
      obtain ⟨k0, q0⟩ := p
      simp only [findQ] at h
      by_cases hk : k0 = k
      · rw [if_pos hk] at h
        obtain rfl : q0 = q := by simpa using h
        simp [hk]
      · rw [if_neg hk] at h
        exact List.mem_cons_of_mem _ (ih h)

theorem mem_findQ {qs : List (String × Queue)} {k : String} {q : Queue}
    (hnd : (qs.map Prod.fst).Nodup) (h : (k, q) ∈ qs) : findQ qs k = some q := by
  induction qs with
  | nil => simp at h
  | cons p rest ih =>
      obtain ⟨k0, q0⟩ := p
      simp only [List.map_cons, List.nodup_cons] at hnd
      rcases List.mem_cons.1 h with heq | hmem
      · cases heq
        simp [findQ]
      · have hk : k0 ≠ k := by
          intro hk0
          subst hk0
          exact hnd.1 (List.mem_map_of_mem Prod.fst hmem)
        simp [findQ, hk, ih hnd.2 hmem]

theorem setQ_decomp {qs : List (String × Queue)} {k : String} {q0 : Queue}
    (h : findQ qs k = some q0) :
    ∃ A B, qs = A ++ (k, q0) :: B ∧ findQ A k = none ∧
      ∀ q1, setQ qs k q1 = A ++ (k, q1) :: B := by
  induction qs with
  | nil => simp [findQ] at h
  | cons p rest ih =>
      obtain ⟨k0, qq⟩ := p
      simp only [findQ] at h
      by_cases hk : k0 = k
      · subst hk
        rw [if_pos rfl] at h
        obtain rfl : qq = q0 := by simpa using h
        exact ⟨[], rest, by simp, by simp [findQ], fun q1 => by simp [setQ]⟩
      · rw [if_neg hk] at h
        obtain ⟨A, B, hqs, hA, hset⟩ := ih h
        refine ⟨(k0, qq) :: A, B, by simp [hqs], ?_, fun q1 => ?_⟩
        · simp [findQ, hk, hA]
        · simp [setQ, hk, hset q1]

theorem map_fst_setQ (qs : List (String × Queue)) (k : String) (q1 : Queue) :
    (setQ qs k q1).map Prod.fst = qs.map Prod.fst := by
  induction qs with
  | nil => rfl
  | cons p rest ih =>
      obtain ⟨k0, qq⟩ := p
      by_cases hk : k0 = k
      · simp [setQ, hk]
      · simp [setQ, hk, ih]

theorem findQ_mid_self {A : List (String × Queue)} (B : List (String × Queue))
    {k : String} (hA : findQ A k = none) (q1 : Queue) :
    findQ (A ++ (k, q1) :: B) k = some q1 := by
  rw [findQ_append_right hA]
  simp [findQ]

theorem findQ_mid_ne {A B : List (String × Queue)} {k k1 : String}
    (hk : k1 ≠ k) (q1 q2 : Queue) :
    findQ (A ++ (k, q1) :: B) k1 = findQ (A ++ (k, q2) :: B) k1 := by
  induction A with
  | nil =>
      have hne : k ≠ k1 := fun h => hk h.symm
      simp [findQ, hne]
  | cons p rest ih =>
      obtain ⟨k0, qq⟩ := p
      simp only [List.cons_append, findQ]
      by_cases h0 : k0 = k1
      · simp [h0]
      · simp [h0, ih]

theorem pendingOf_append (A B : List (String × Queue)) :
    pendingOf (A ++ B) = pendingOf A ++ pendingOf B :=
  List.flatMap_append A B _

theorem pendingOf_cons (p : String × Queue) (B : List (String × Queue)) :
    pendingOf (p :: B) = p.2.requests.map Request.serial ++ pendingOf B := by
  simp [pendingOf]

theorem pendingOf_nil_of {qs : List (String × Queue)}
    (h : ∀ p ∈ qs, p.2.requests = []) : pendingOf qs = [] := by
  induction qs with
  | nil => rfl
  | cons p rest ih =>
      rw [pendingOf_cons, h p (List.mem_cons_self p rest), ih
        (fun p1 h1 => h p1 (List.mem_cons_of_mem p h1))]
      rfl

theorem sumOf_append (A B : List (String × Queue)) :
    sumOf (A ++ B) = sumOf A + sumOf B := by
  simp [sumOf]

theorem sumOf_cons (p : String × Queue) (B : List (String × Queue)) :
    sumOf (p :: B) = p.2.processed + sumOf B := by
  simp [sumOf]

theorem findQ_append_single (qs : List (String × Queue)) (id : String) (qn : Queue)
    (hid : findQ qs id = none) (k : String) :
    findQ (qs ++ [(id, qn)]) k = if k = id then some qn else findQ qs k := by
  by_cases hk : k = id
  · subst hk
    rw [if_pos rfl, findQ_append_right hid]
    simp [findQ]
  · rw [if_neg hk]
    cases hq : findQ qs k with
    | some q => exact findQ_append_left hq
    | none =>
        rw [findQ_append_right hq]
        have hne : id ≠ k := fun h => hk h.symm
        simp [findQ, hne]

/-! ### Preservation of the invariant by every operation -/

theorem inv_init : Inv NewWFQScheduler := by
  refine ⟨le_refl 0, by simp [NewWFQScheduler], ?_, ?_, ?_, ?_, ?_, ?_, rfl, rfl⟩
  · intro e he
    simp [NewWFQScheduler] at he
  · intro k q hq
    simp [NewWFQScheduler, findQ] at hq
  · intro k q hq
    simp [NewWFQScheduler, findQ] at hq
  · intro c hc hc0
    simp [NewWFQScheduler] at hc
  · intro m hm
    simp [NewWFQScheduler, pendingSerials, pendingOf] at hm
  · simp [NewWFQScheduler, pendingSerials, pendingOf]

theorem inv_stop (s : WFQScheduler) (h : Inv s) : Inv (Stop s) := by
  obtain ⟨h1, h2, h3, h4, h5, h6, h7, h8, h9, h10⟩ := h
  exact ⟨h1, h2, h3, h4, h5, h6, h7, h8, h9, h10⟩

theorem inv_getStats (s : WFQScheduler) (h : Inv s) : Inv (GetStatsOp s).2 := h

theorem Enqueue_not_found (s : WFQScheduler) (qid rid : String) (size now : ℤ)
    (hfind : findQ s.queues qid = none) :
    Enqueue s qid rid size now = (none, s) := by
  unfold Enqueue
  rw [hfind]

theorem Enqueue_active_eq (s : WFQScheduler) (qid rid : String) (size now : ℤ)
    (queue : Queue) (hfind : findQ s.queues qid = some queue)
    (hact : queue.active = true) :
    Enqueue s qid rid size now = (some s.nextSerial,
      { s with
        queues := setQ s.queues qid { queue with
          requests := queue.requests ++ [mkRequest qid rid size now s.nextSerial] }
        nextSerial := s.nextSerial + 1 }) := by
  unfold Enqueue
  rw [hfind]
  simp [hact, mkRequest]

theorem Enqueue_inactive_eq (s : WFQScheduler) (qid rid : String) (size now : ℤ)
    (queue : Queue) (hfind : findQ s.queues qid = some queue)
    (hact : queue.active = false) :
    Enqueue s qid rid size now = (some s.nextSerial,
      { s with
        queues := setQ s.queues qid { queue with
          requests := queue.requests ++ [mkRequest qid rid size now s.nextSerial]
          active := true
          virtualFinish := s.virtualTime + (size : ℚ) / queue.weight }
        heap := heapPush s.heap ⟨s.virtualTime + (size : ℚ) / queue.weight, qid⟩
        nextSerial := s.nextSerial + 1 }) := by
  unfold Enqueue
  rw [hfind]
  simp [hact, mkRequest]

theorem Enqueue_active_state (s : WFQScheduler) (qid rid : String) (size now : ℤ)
    (queue : Queue) (hfind : findQ s.queues qid = some queue)
    (hact : queue.active = true) :
    (Enqueue s qid rid size now).2 =
      { s with
        queues := setQ s.queues qid { queue with
          requests := queue.requests ++ [mkRequest qid rid size now s.nextSerial] }
        nextSerial := s.nextSerial + 1 } := by
  rw [Enqueue_active_eq s qid rid size now queue hfind hact]

theorem Enqueue_inactive_state (s : WFQScheduler) (qid rid : String) (size now : ℤ)
    (queue : Queue) (hfind : findQ s.queues qid = some queue)
    (hact : queue.active = false) :
    (Enqueue s qid rid size now).2 =
      { s with
        queues := setQ s.queues qid { queue with
          requests := queue.requests ++ [mkRequest qid rid size now s.nextSerial]
          active := true
          virtualFinish := s.virtualTime + (size : ℚ) / queue.weight }
        heap := heapPush s.heap ⟨s.virtualTime + (size : ℚ) / queue.weight, qid⟩
        nextSerial := s.nextSerial + 1 } := by
  rw [Enqueue_inactive_eq s qid rid size now queue hfind hact]

theorem processNext_empty (s : WFQScheduler) (now : ℤ) (hne : s.heap.length = 0) :
    processNext s now = s := by
  unfold processNext
  rw [if_pos hne]

theorem processNext_last_eq (s : WFQScheduler) (now : ℤ) (queue : Queue)
    (request : Request) (hne : ¬ s.heap.length = 0)
    (hq : findQ s.queues (heapPop s.heap).1.qid = some queue)
    (hreq : queue.requests = [request]) :
    processNext s now = { s with
      heap := (heapPop s.heap).2,
      queues := setQ s.queues (heapPop s.heap).1.qid { queue with
        requests := []
        active := false
        processed := queue.processed + 1
        totalDelay := queue.totalDelay + (now - request.Timestamp)
        lastService := now },
      virtualTime := max s.virtualTime queue.virtualFinish,
      fulfilled := s.fulfilled ++ [request.serial] } := by
  unfold processNext
  rw [if_neg hne]
  simp only [hq, hreq]

theorem processNext_more_eq (s : WFQScheduler) (now : ℤ) (queue : Queue)
    (request nextReq : Request) (rem2 : List Request) (hne : ¬ s.heap.length = 0)
    (hq : findQ s.queues (heapPop s.heap).1.qid = some queue)
    (hreq : queue.requests = request :: nextReq :: rem2) :
    processNext s now = { s with
      heap := heapPush (heapPop s.heap).2
        ⟨max s.virtualTime queue.virtualFinish + (nextReq.Size : ℚ) / queue.weight,
         (heapPop s.heap).1.qid⟩,
      queues := setQ s.queues (heapPop s.heap).1.qid { queue with
        requests := nextReq :: rem2
        processed := queue.processed + 1
        totalDelay := queue.totalDelay + (now - request.Timestamp)
        lastService := now
        virtualFinish := max s.virtualTime queue.virtualFinish
          + (nextReq.Size : ℚ) / queue.weight },
      virtualTime := max s.virtualTime queue.virtualFinish,
      fulfilled := s.fulfilled ++ [request.serial] } := by
  unfold processNext
  rw [if_neg hne]
  simp only [hq, hreq]

theorem serial_enqueue (A B : List (String × Queue)) (k : String) (queue qX : Queue)
    (F : List ℕ) (ns : ℕ)
    (hreq : qX.requests.map Request.serial = queue.requests.map Request.serial ++ [ns])
    (hbound : ∀ m ∈ pendingOf (A ++ (k, queue) :: B) ++ F, m < ns)
    (hnodup : (pendingOf (A ++ (k, queue) :: B) ++ F).Nodup)
    (hcount : (pendingOf (A ++ (k, queue) :: B)).length + F.length = ns) :
    (∀ m ∈ pendingOf (A ++ (k, qX) :: B) ++ F, m < ns + 1) ∧
    (pendingOf (A ++ (k, qX) :: B) ++ F).Nodup ∧
    (pendingOf (A ++ (k, qX) :: B)).length + F.length = ns + 1 := by
  have hold : pendingOf (A ++ (k, queue) :: B)
      = pendingOf A ++ (queue.requests.map Request.serial ++ pendingOf B) := by
    rw [pendingOf_append, pendingOf_cons]
  have hnew : pendingOf (A ++ (k, qX) :: B)
      = pendingOf A ++ ((queue.requests.map Request.serial ++ [ns]) ++ pendingOf B) := by
    rw [pendingOf_append, pendingOf_cons, hreq]
  have hperm : List.Perm (pendingOf (A ++ (k, qX) :: B) ++ F)
      (ns :: (pendingOf (A ++ (k, queue) :: B) ++ F)) := by
    rw [hold, hnew]
    have base : List.Perm
        ((pendingOf A ++ queue.requests.map Request.serial) ++ ns :: (pendingOf B ++ F))
        (ns :: ((pendingOf A ++ queue.requests.map Request.serial) ++ (pendingOf B ++ F))) :=
      List.perm_middle
    simpa [List.append_assoc] using base
  have hnotmem : ns ∉ pendingOf (A ++ (k, queue) :: B) ++ F := by
    intro hmem
    exact lt_irrefl ns (hbound ns hmem)
  refine ⟨?_, ?_, ?_⟩
  · intro m hm
    rcases List.mem_cons.1 (hperm.subset hm) with rfl | hm1
    · omega
    · exact Nat.lt_succ_of_lt (hbound m hm1)
  · exact hperm.symm.nodup (List.nodup_cons.mpr ⟨hnotmem, hnodup⟩)
  · have := hperm.length_eq
    simp only [List.length_append, List.length_cons] at this
    omega

theorem serial_dispatch (A B : List (String × Queue)) (k : String) (queue qX : Queue)
    (F : List ℕ) (ns : ℕ) (request : Request)
    (hreq : queue.requests = request :: qX.requests)
    (hbound : ∀ m ∈ pendingOf (A ++ (k, queue) :: B) ++ F, m < ns)
    (hnodup : (pendingOf (A ++ (k, queue) :: B) ++ F).Nodup)
    (hcount : (pendingOf (A ++ (k, queue) :: B)).length + F.length = ns) :
    (∀ m ∈ pendingOf (A ++ (k, qX) :: B) ++ (F ++ [request.serial]), m < ns) ∧
    (pendingOf (A ++ (k, qX) :: B) ++ (F ++ [request.serial])).Nodup ∧
    (pendingOf (A ++ (k, qX) :: B)).length + (F ++ [request.serial]).length = ns := by
  have hold : pendingOf (A ++ (k, queue) :: B)
      = pendingOf A ++ (request.serial :: qX.requests.map Request.serial ++ pendingOf B) := by
    rw [pendingOf_append, pendingOf_cons, hreq]
    simp [List.append_assoc]
  have hnew : pendingOf (A ++ (k, qX) :: B)
      = pendingOf A ++ (qX.requests.map Request.serial ++ pendingOf B) := by
    rw [pendingOf_append, pendingOf_cons]
  have hperm : List.Perm (pendingOf (A ++ (k, queue) :: B) ++ F)
      (pendingOf (A ++ (k, qX) :: B) ++ (F ++ [request.serial])) := by
    rw [hold, hnew]
    have base1 : List.Perm
        (pendingOf A ++ request.serial ::
          (qX.requests.map Request.serial ++ (pendingOf B ++ F)))
        (request.serial :: (pendingOf A ++
          (qX.requests.map Request.serial ++ (pendingOf B ++ F)))) :=
      List.perm_middle
    have base2 : List.Perm
        ((pendingOf A ++ (qX.requests.map Request.serial ++ (pendingOf B ++ F)))
          ++ [request.serial])
        (request.serial :: (pendingOf A ++
          (qX.requests.map Request.serial ++ (pendingOf B ++ F)))) :=
      List.perm_append_singleton _ _
    have comb := base1.trans base2.symm
    simpa [List.append_assoc] using comb
  refine ⟨?_, hperm.nodup hnodup, ?_⟩
  · intro m hm
    exact hbound m (hperm.mem_iff.mpr hm)
  · have := hperm.length_eq
    simp only [List.length_append, List.length_cons, List.length_nil] at this ⊢
    omega

theorem inv_addQueue (s : WFQScheduler) (id : String) (w : ℚ) (now : ℤ) (h : Inv s) :
    Inv (AddQueue s id w now) := by
  obtain ⟨h1, h2, h3, h4, h5, h6, h7, h8, h9, h10⟩ := h
  unfold AddQueue
  cases hfind : findQ s.queues id with
  | some q => exact ⟨h1, h2, h3, h4, h5, h6, h7, h8, h9, h10⟩
  | none =>
      have hid : id ∉ s.queues.map Prod.fst := findQ_eq_none_iff.mp hfind
      have hfq : ∀ k, findQ (s.queues ++ [(id, freshQueue id w now)]) k
          = if k = id then some (freshQueue id w now) else findQ s.queues k :=
        findQ_append_single s.queues id _ hfind
      have hpend : pendingOf (s.queues ++ [(id, freshQueue id w now)])
          = pendingSerials s := by
        rw [pendingOf_append, pendingOf_cons]
        simp [pendingSerials, pendingOf, freshQueue]
      refine ⟨h1, ?_, ?_, ?_, ?_, h6, ?_, ?_, ?_, ?_⟩
      · rw [List.map_append]
        refine List.nodup_append.mpr ⟨h2, by simp, ?_⟩
        intro a ha hb
        simp only [List.map_cons, List.map_nil, List.mem_cons, List.not_mem_nil,
          or_false] at hb
        subst hb
        exact hid ha
      · intro e he
        obtain ⟨q, hq, hvf, hact⟩ := h3 e he
        exact ⟨q, findQ_append_left hq, hvf, hact⟩
      · intro k q hq
        rw [hfq k] at hq
        by_cases hk : k = id
        · rw [if_pos hk] at hq
          obtain rfl : freshQueue id w now = q := by simpa using hq
          rw [if_neg (by simp [freshQueue])]
          rw [List.count_eq_zero]
          intro hmem
          obtain ⟨e, he, hek⟩ := List.mem_map.1 hmem
          obtain ⟨q1, hq1, _, _⟩ := h3 e he
          rw [hek, hk, hfind] at hq1
          exact Option.noConfusion hq1
        · rw [if_neg hk] at hq
          exact h4 k q hq
      · intro k q hq
        rw [hfq k] at hq
        by_cases hk : k = id
        · rw [if_pos hk] at hq
          obtain rfl : freshQueue id w now = q := by simpa using hq
          simp [freshQueue]
        · rw [if_neg hk] at hq
          exact h5 k q hq
      · intro m hm
        refine h7 m ?_
        show m ∈ pendingSerials s ++ s.fulfilled
        rw [show pendingSerials { s with
            queues := s.queues ++ [(id, freshQueue id w now)] }
          = pendingSerials s from hpend] at hm
        exact hm
      · show (pendingOf _ ++ s.fulfilled).Nodup
        rw [hpend]
        exact h8
      · show (pendingOf _).length + s.fulfilled.length = s.nextSerial
        rw [hpend]
        exact h9
      · show sumOf _ = _
        rw [sumOf_append, sumOf_cons]
        simpa [sumOf, freshQueue] using h10

theorem inv_enqueue (s : WFQScheduler) (qid rid : String) (size now : ℤ) (h : Inv s) :
    Inv (Enqueue s qid rid size now).2 := by
  obtain ⟨h1, h2, h3, h4, h5, h6, h7, h8, h9, h10⟩ := h
  cases hfind : findQ s.queues qid with
  | none =>
      rw [Enqueue_not_found s qid rid size now hfind]
      exact ⟨h1, h2, h3, h4, h5, h6, h7, h8, h9, h10⟩
  | some queue =>
      obtain ⟨A, B, hqs, hA, hset⟩ := setQ_decomp hfind
      have h2' := h2
      rw [hqs] at h2'
      have h7' : ∀ m ∈ pendingOf (A ++ (qid, queue) :: B) ++ s.fulfilled,
          m < s.nextSerial := by
        simp only [pendingSerials] at h7
        rw [hqs] at h7
        exact h7
      have h8' : (pendingOf (A ++ (qid, queue) :: B) ++ s.fulfilled).Nodup := by
        simp only [pendingSerials] at h8
        rw [hqs] at h8
        exact h8
      have h9' : (pendingOf (A ++ (qid, queue) :: B)).length + s.fulfilled.length
          = s.nextSerial := by
        simp only [pendingSerials] at h9
        rw [hqs] at h9
        exact h9
      have h10' : sumOf (A ++ (qid, queue) :: B) = (s.fulfilled.length : ℤ) := by
        simp only [sumProcessed] at h10
        rw [hqs] at h10
        exact h10
      cases hact : queue.active with
      | true =>
          rw [Enqueue_active_state s qid rid size now queue hfind hact]
          set qX : Queue := { queue with
            requests := queue.requests ++ [mkRequest qid rid size now s.nextSerial] }
            with hqX
          rw [hset qX]
          have hmap : qX.requests.map Request.serial
              = queue.requests.map Request.serial ++ [s.nextSerial] := by
            simp [hqX, mkRequest]
          obtain ⟨hb', hn', hc'⟩ :=
            serial_enqueue A B qid queue qX s.fulfilled s.nextSerial hmap h7' h8' h9'
          have hfq_self : findQ (A ++ (qid, qX) :: B) qid = some qX :=
            findQ_mid_self B hA qX
          have hfq : ∀ k, k ≠ qid → findQ (A ++ (qid, qX) :: B) k = findQ s.queues k := by
            intro k hk
            rw [findQ_mid_ne hk qX queue, ← hqs]
          refine ⟨h1, ?_, ?_, ?_, ?_, h6, ?_, ?_, ?_, ?_⟩
          · simp only [List.map_append, List.map_cons] at h2' ⊢
            exact h2'
          · intro e he
            obtain ⟨q, hq, hvf, hac⟩ := h3 e he
            by_cases hk : e.qid = qid
            · rw [hk, hfind] at hq
              obtain rfl : queue = q := by simpa using hq
              refine ⟨qX, by rw [hk]; exact hfq_self, ?_, ?_⟩
              · simpa [hqX] using hvf
              · simpa [hqX] using hac
            · exact ⟨q, by rw [hfq e.qid hk]; exact hq, hvf, hac⟩
          · intro k q' hq'
            by_cases hk : k = qid
            · subst hk
              rw [hfq_self] at hq'
              obtain rfl : qX = q' := by simpa using hq'
              have hcq := h4 k queue hfind
              rw [hact, if_pos rfl] at hcq
              have hqa : qX.active = true := by simp [hqX, hact]
              rw [if_pos hqa]
              exact hcq
            · rw [hfq k hk] at hq'
              exact h4 k q' hq'
          · intro k q' hq'
            by_cases hk : k = qid
            · subst hk
              rw [hfq_self] at hq'
              obtain rfl : qX = q' := by simpa using hq'
              simp [hqX, hact]
            · rw [hfq k hk] at hq'
              exact h5 k q' hq'
          · intro m hm
            simp only [pendingSerials] at hm ⊢
            exact hb' m hm
          · simp only [pendingSerials]
            exact hn'
          · simp only [pendingSerials]
            exact hc'
          · simp only [sumProcessed]
            have hsum : sumOf (A ++ (qid, qX) :: B) = sumOf (A ++ (qid, queue) :: B) := by
              rw [sumOf_append, sumOf_append, sumOf_cons, sumOf_cons]
            rw [hsum, h10']
      | false =>
          rw [Enqueue_inactive_state s qid rid size now queue hfind hact]
          set qX : Queue := { queue with
            requests := queue.requests ++ [mkRequest qid rid size now s.nextSerial]
            active := true
            virtualFinish := s.virtualTime + (size : ℚ) / queue.weight }
            with hqX
          rw [hset qX]
          set x : HeapElem := ⟨s.virtualTime + (size : ℚ) / queue.weight, qid⟩ with hx
          have hmap : qX.requests.map Request.serial
              = queue.requests.map Request.serial ++ [s.nextSerial] := by
            simp [hqX, mkRequest]
          obtain ⟨hb', hn', hc'⟩ :=
            serial_enqueue A B qid queue qX s.fulfilled s.nextSerial hmap h7' h8' h9'
          have hfq_self : findQ (A ++ (qid, qX) :: B) qid = some qX :=
            findQ_mid_self B hA qX
          have hfq : ∀ k, k ≠ qid → findQ (A ++ (qid, qX) :: B) k = findQ s.queues k := by
            intro k hk
            rw [findQ_mid_ne hk qX queue, ← hqs]
          have hcnt : ∀ k, (List.map HeapElem.qid (heapPush s.heap x)).count k
              = (List.map HeapElem.qid s.heap).count k + (if qid = k then 1 else 0) := by
            intro k
            have hp := (heapPush_perm s.heap x).map HeapElem.qid
            rw [hp.count_eq k]
            simp [hx, List.count_cons]
          have hnotheap : ∀ e ∈ s.heap, e.qid ≠ qid := by
            intro e he hek
            obtain ⟨q, hq, _, hac⟩ := h3 e he
            rw [hek, hfind] at hq
            obtain rfl : queue = q := by simpa using hq
            rw [hact] at hac
            exact Bool.false_ne_true hac
          refine ⟨h1, ?_, ?_, ?_, ?_, ?_, ?_, ?_, ?_, ?_⟩
          · simp only [List.map_append, List.map_cons] at h2' ⊢
            exact h2'
          · intro e he
            have he2 : e ∈ x :: s.heap := (heapPush_perm s.heap x).subset he
            rcases List.mem_cons.1 he2 with rfl | he3
            · exact ⟨qX, by rw [hx]; exact hfq_self, by simp [hqX, hx], by simp [hqX]⟩
            · obtain ⟨q, hq, hvf, hac⟩ := h3 e he3
              exact ⟨q, by rw [hfq e.qid (hnotheap e he3)]; exact hq, hvf, hac⟩
          · intro k q' hq'
            by_cases hk : k = qid
            · subst hk
              rw [hfq_self] at hq'
              obtain rfl : qX = q' := by simpa using hq'
              rw [hcnt k]
              have hc0 := h4 k queue hfind
              rw [hact] at hc0
              simp only [Bool.false_eq_true, if_false] at hc0
              rw [hc0]
              have : qX.active = true := by simp [hqX]
              rw [if_pos this, if_pos rfl]
            · rw [hfq k hk] at hq'
              rw [hcnt k, if_neg (fun hh => hk hh.symm)]
              have := h4 k q' hq'
              omega
          · intro k q' hq'
            by_cases hk : k = qid
            · subst hk
              rw [hfq_self] at hq'
              obtain rfl : qX = q' := by simpa using hq'
              simp [hqX]
            · rw [hfq k hk] at hq'
              exact h5 k q' hq'
          · exact heapPush_ordered s.heap x h6
          · intro m hm
            simp only [pendingSerials] at hm ⊢
            exact hb' m hm
          · simp only [pendingSerials]
            exact hn'
          · simp only [pendingSerials]
            exact hc'
          · simp only [sumProcessed]
            have hsum : sumOf (A ++ (qid, qX) :: B) = sumOf (A ++ (qid, queue) :: B) := by
              rw [sumOf_append, sumOf_append, sumOf_cons, sumOf_cons]
            rw [hsum, h10']

theorem inv_processNext (s : WFQScheduler) (now : ℤ) (h : Inv s) :
    Inv (processNext s now) := by
  obtain ⟨h1, h2, h3, h4, h5, h6, h7, h8, h9, h10⟩ := h
  by_cases hne : s.heap.length = 0
  · rw [processNext_empty s now hne]
    exact ⟨h1, h2, h3, h4, h5, h6, h7, h8, h9, h10⟩
  · have hnil : s.heap ≠ [] := by
      intro h0
      rw [h0] at hne
      exact hne rfl
    set e := (heapPop s.heap).1 with hedef
    set rest := (heapPop s.heap).2 with hrestdef
    have hperm : List.Perm s.heap (e :: rest) := heapPop_perm s.heap hnil
    have hmem : e ∈ s.heap := hperm.symm.subset (List.mem_cons_self _ _)
    obtain ⟨queue, hq, hvf, hact⟩ := h3 e hmem
    have hreqne : queue.requests ≠ [] := (h5 _ _ hq).mp hact
    have hcnt1 : (List.map HeapElem.qid s.heap).count e.qid = 1 := by
      have hc := h4 e.qid queue hq
      rw [hact, if_pos rfl] at hc
      exact hc
    have hcntrest : (List.map HeapElem.qid rest).count e.qid = 0 := by
      have hp := hperm.map HeapElem.qid
      have hc := hp.count_eq e.qid
      rw [hcnt1] at hc
      simp [List.map_cons, List.count_cons] at hc
      omega
    have hcntk : ∀ k, k ≠ e.qid → (List.map HeapElem.qid rest).count k
        = (List.map HeapElem.qid s.heap).count k := by
      intro k hk
      have hp := hperm.map HeapElem.qid
      rw [hp.count_eq k]
      simp [List.count_cons, hk]
    have hrest_sub : ∀ f ∈ rest, f ∈ s.heap := by
      intro f hf
      exact hperm.symm.subset (List.mem_cons_of_mem _ hf)
    have hrest_ne : ∀ f ∈ rest, f.qid ≠ e.qid := by
      intro f hf hfe
      have hmem2 : e.qid ∈ List.map HeapElem.qid rest := by
        rw [← hfe]
        exact List.mem_map_of_mem HeapElem.qid hf
      rw [← List.count_pos_iff] at hmem2
      omega
    have hordrest : HeapOrdered rest := heapPop_ordered s.heap h6
    obtain ⟨A, B, hqs, hA, hset⟩ := setQ_decomp hq
    have h2' := h2
    rw [hqs] at h2'
    have h7' : ∀ m ∈ pendingOf (A ++ (e.qid, queue) :: B) ++ s.fulfilled,
        m < s.nextSerial := by
      simp only [pendingSerials] at h7
      rw [hqs] at h7
      exact h7
    have h8' : (pendingOf (A ++ (e.qid, queue) :: B) ++ s.fulfilled).Nodup := by
      simp only [pendingSerials] at h8
      rw [hqs] at h8
      exact h8
    have h9' : (pendingOf (A ++ (e.qid, queue) :: B)).length + s.fulfilled.length
        = s.nextSerial := by
      simp only [pendingSerials] at h9
      rw [hqs] at h9
      exact h9
    have h10' : sumOf (A ++ (e.qid, queue) :: B) = (s.fulfilled.length : ℤ) := by
      simp only [sumProcessed] at h10
      rw [hqs] at h10
      exact h10
    cases hreqcase : queue.requests with
    | nil => exact absurd hreqcase hreqne
    | cons request remaining =>
        cases remaining with
        | nil =>
            rw [processNext_last_eq s now queue request hne hq hreqcase]
            set qX : Queue := { queue with
              requests := []
              active := false
              processed := queue.processed + 1
              totalDelay := queue.totalDelay + (now - request.Timestamp)
              lastService := now } with hqX
            rw [hset qX]
            have hreqX : queue.requests = request :: qX.requests := hreqcase
            obtain ⟨hb', hn', hc'⟩ := serial_dispatch A B e.qid queue qX s.fulfilled
              s.nextSerial request hreqX h7' h8' h9'
            have hfq_self : findQ (A ++ (e.qid, qX) :: B) e.qid = some qX :=
              findQ_mid_self B hA qX
            have hfq : ∀ k, k ≠ e.qid →
                findQ (A ++ (e.qid, qX) :: B) k = findQ s.queues k := by
              intro k hk
              rw [findQ_mid_ne hk qX queue, ← hqs]
            refine ⟨?_, ?_, ?_, ?_, ?_, hordrest, ?_, ?_, ?_, ?_⟩
            · exact le_trans h1 (le_max_left _ _)
            · simp only [List.map_append, List.map_cons] at h2' ⊢
              exact h2'
            · intro f hf
              obtain ⟨q1, hq1, hvf1, hac1⟩ := h3 f (hrest_sub f hf)
              exact ⟨q1, by rw [hfq f.qid (hrest_ne f hf)]; exact hq1, hvf1, hac1⟩
            · intro k q' hq'
              by_cases hk : k = e.qid
              · subst hk
                rw [hfq_self] at hq'
                obtain rfl : qX = q' := by simpa using hq'
                have hqa : qX.active = false := by simp [hqX]
                rw [hqa]
                simpa using hcntrest
              · rw [hfq k hk] at hq'
                rw [hcntk k hk]
                exact h4 k q' hq'
            · intro k q' hq'
              by_cases hk : k = e.qid
              · subst hk
                rw [hfq_self] at hq'
                obtain rfl : qX = q' := by simpa using hq'
                simp [hqX]
              · rw [hfq k hk] at hq'
                exact h5 k q' hq'
            · intro m hm
              simp only [pendingSerials] at hm ⊢
              exact hb' m hm
            · simp only [pendingSerials]
              exact hn'
            · simp only [pendingSerials]
              exact hc'
            · simp only [sumProcessed]
              have hsum : sumOf (A ++ (e.qid, qX) :: B)
                  = sumOf (A ++ (e.qid, queue) :: B) + 1 := by
                rw [sumOf_append, sumOf_append, sumOf_cons, sumOf_cons]
                have : qX.processed = queue.processed + 1 := by simp [hqX]
                rw [this]
                ring
              rw [hsum, h10']
              simp [List.length_append]
        | cons nextReq rem2 =>
            rw [processNext_more_eq s now queue request nextReq rem2 hne hq hreqcase]
            set qX : Queue := { queue with
              requests := nextReq :: rem2
              processed := queue.processed + 1
              totalDelay := queue.totalDelay + (now - request.Timestamp)
              lastService := now
              virtualFinish := max s.virtualTime queue.virtualFinish
                + (nextReq.Size : ℚ) / queue.weight } with hqX
            rw [hset qX]
            set x : HeapElem := ⟨max s.virtualTime queue.virtualFinish
              + (nextReq.Size : ℚ) / queue.weight, e.qid⟩ with hx
            have hreqX : queue.requests = request :: qX.requests := hreqcase
            obtain ⟨hb', hn', hc'⟩ := serial_dispatch A B e.qid queue qX s.fulfilled
              s.nextSerial request hreqX h7' h8' h9'
            have hfq_self : findQ (A ++ (e.qid, qX) :: B) e.qid = some qX :=
              findQ_mid_self B hA qX
            have hfq : ∀ k, k ≠ e.qid →
                findQ (A ++ (e.qid, qX) :: B) k = findQ s.queues k := by
              intro k hk
              rw [findQ_mid_ne hk qX queue, ← hqs]
            have hcntpush : ∀ k, (List.map HeapElem.qid (heapPush rest x)).count k
                = (List.map HeapElem.qid rest).count k
                  + (if e.qid = k then 1 else 0) := by
              intro k
              have hp := (heapPush_perm rest x).map HeapElem.qid
              rw [hp.count_eq k]
              simp [hx, List.count_cons]
            refine ⟨?_, ?_, ?_, ?_, ?_, ?_, ?_, ?_, ?_, ?_⟩
            · exact le_trans h1 (le_max_left _ _)
            · simp only [List.map_append, List.map_cons] at h2' ⊢
              exact h2'
            · intro f hf
              have hf2 : f ∈ x :: rest := (heapPush_perm rest x).subset hf
              rcases List.mem_cons.1 hf2 with rfl | hf3
              · refine ⟨qX, by rw [hx]; exact hfq_self, by simp [hqX, hx], ?_⟩
                simpa [hqX] using hact
              · obtain ⟨q1, hq1, hvf1, hac1⟩ := h3 f (hrest_sub f hf3)
                exact ⟨q1, by rw [hfq f.qid (hrest_ne f hf3)]; exact hq1, hvf1, hac1⟩
            · intro k q' hq'
              by_cases hk : k = e.qid
              · subst hk
                rw [hfq_self] at hq'
                obtain rfl : qX = q' := by simpa using hq'
                rw [hcntpush e.qid, hcntrest, if_pos rfl]
                have hqa : qX.active = true := by simpa [hqX] using hact
                rw [if_pos hqa]
              · rw [hfq k hk] at hq'
                rw [hcntpush k, if_neg (fun hh => hk hh.symm), hcntk k hk]
                have := h4 k q' hq'
                omega
            · intro k q' hq'
              by_cases hk : k = e.qid
              · subst hk
                rw [hfq_self] at hq'
                obtain rfl : qX = q' := by simpa using hq'
                simp [hqX, hact]
              · rw [hfq k hk] at hq'
                exact h5 k q' hq'
            · exact heapPush_ordered rest x hordrest
            · intro m hm
              simp only [pendingSerials] at hm ⊢
              exact hb' m hm
            · simp only [pendingSerials]
              exact hn'
            · simp only [pendingSerials]
              exact hc'
            · simp only [sumProcessed]
              have hsum : sumOf (A ++ (e.qid, qX) :: B)
                  = sumOf (A ++ (e.qid, queue) :: B) + 1 := by
                rw [sumOf_append, sumOf_append, sumOf_cons, sumOf_cons]
                have : qX.processed = queue.processed + 1 := by simp [hqX]
                rw [this]
                ring
              rw [hsum, h10']
              simp [List.length_append]

theorem processNext_missing_eq (s : WFQScheduler) (now : ℤ) (hne : ¬ s.heap.length = 0)
    (hq : findQ s.queues (heapPop s.heap).1.qid = none) :
    processNext s now = { s with heap := (heapPop s.heap).2 } := by
  unfold processNext
  rw [if_neg hne]
  simp only [hq]

theorem processNext_stale_eq (s : WFQScheduler) (now : ℤ) (queue : Queue)
    (hne : ¬ s.heap.length = 0)
    (hq : findQ s.queues (heapPop s.heap).1.qid = some queue)
    (hreq : queue.requests = []) :
    processNext s now = { s with
      heap := (heapPop s.heap).2,
      queues := setQ s.queues (heapPop s.heap).1.qid { queue with active := false } } := by
  unfold processNext
  rw [if_neg hne]
  simp only [hq, hreq]

/-- Every reachable state satisfies the invariant. -/
theorem reachable_inv (s : WFQScheduler) (h : Reachable s) : Inv s := by
  induction h with
  | refl => exact inv_init
  | tail hr hstep ih =>
      cases hstep with
      | addQueue id w now => exact inv_addQueue _ id w now ih
      | enqueue qid rid size now => exact inv_enqueue _ qid rid size now ih
      | processNext now => exact inv_processNext _ now ih
      | getStats => exact inv_getStats _ ih
      | stop => exact inv_stop _ ih

/-- In a state whose heap is empty, the invariant forces every backlog to be
empty, so every allocated serial has been fulfilled and the processed counters
sum to the number of successful Enqueue calls. -/
theorem drained_of_heap_empty (s : WFQScheduler) (hinv : Inv s) (hheap : s.heap = []) :
    sumProcessed s = (s.nextSerial : ℤ) ∧ s.fulfilled.length = s.nextSerial := by
  have hreq : ∀ p ∈ s.queues, p.2.requests = [] := by
    intro p hp
    obtain ⟨k, q⟩ := p
    have hfq := mem_findQ hinv.keysNodup hp
    have hcnt := hinv.heapCount k q hfq
    rw [hheap] at hcnt
    simp only [List.map_nil, List.count_nil] at hcnt
    have hact : q.active = false := by
      cases hqa : q.active with
      | false => rfl
      | true =>
          rw [hqa, if_pos rfl] at hcnt
          exact absurd hcnt.symm one_ne_zero
    by_cases hr : q.requests = []
    · exact hr
    · have := (hinv.activePending k q hfq).mpr hr
      rw [hact] at this
      exact absurd this Bool.false_ne_true
  have hpend : pendingSerials s = [] := by
    simp only [pendingSerials]
    exact pendingOf_nil_of hreq
  have h9 := hinv.serialCount
  rw [hpend] at h9
  simp only [List.length_nil, Nat.zero_add] at h9
  refine ⟨?_, h9⟩
  rw [hinv.processedSum, h9]

theorem findStats_map (qs : List (String × Queue)) (k : String) (q : Queue)
    (h : findQ qs k = some q) :
    findStats (qs.map (fun p => (p.1, statsOf p.2))) k = some (statsOf q) := by
  induction qs with
  | nil => simp [findQ] at h
  | cons p rest ih =>
      obtain ⟨k0, q0⟩ := p
      simp only [findQ] at h
      simp only [List.map_cons, findStats]
      by_cases hk : k0 = k
      · rw [if_pos hk] at h
        obtain rfl : q0 = q := by simpa using h
        rw [if_pos hk]
      · rw [if_neg hk] at h
        rw [if_neg hk]
        exact ih h

theorem demoRegistered_reachable : Reachable demoRegistered :=
  Relation.ReflTransGen.tail Relation.ReflTransGen.refl (Step.addQueue _ "a" 1 0)

theorem demoOne_reachable : Reachable demoOne :=
  Relation.ReflTransGen.tail demoRegistered_reachable (Step.enqueue _ "a" "r" 1 0)

theorem demoDone_reachable : Reachable demoDone :=
  Relation.ReflTransGen.tail demoOne_reachable (Step.processNext _ 0)

theorem demoABC_reachable : Reachable demoABC :=
  Relation.ReflTransGen.tail
    (Relation.ReflTransGen.tail
      (Relation.ReflTransGen.tail Relation.ReflTransGen.refl (Step.addQueue _ "a" 1 0))
      (Step.addQueue _ "b" 1 0))
    (Step.addQueue _ "c" 1 0)

theorem demoABCLoaded_reachable : Reachable demoABCLoaded :=
  Relation.ReflTransGen.tail
    (Relation.ReflTransGen.tail
      (Relation.ReflTransGen.tail demoABC_reachable (Step.enqueue _ "a" "ra" 1 0))
      (Step.enqueue _ "b" "rb" 1 0))
    (Step.enqueue _ "c" "rc" 1 0)

theorem demoTie_reachable : Reachable demoTie :=
  Relation.ReflTransGen.tail demoABCLoaded_reachable (Step.processNext _ 0)

/-! ### The claims -/

section Claims

attribute [local semireducible] Rat.add Rat.mul Rat.inv Rat.sub

/-- C1: in every reachable state, no completion handle has been fulfilled
twice (the fulfilment trace has no duplicates, so each submitted request is
dispatched at most once), and once the system drains (the heap is empty) the
processed counters summed over all classes equal the number of successful
Enqueue calls, which all have been fulfilled exactly once. -/
theorem C1_exactly_once_dispatch (s : WFQScheduler) (h : Reachable s) :
    s.fulfilled.Nodup ∧ (∀ m, s.fulfilled.count m ≤ 1) ∧
    (s.heap = [] →
      sumProcessed s = (s.nextSerial : ℤ) ∧ s.fulfilled.length = s.nextSerial) := by
  have hinv := reachable_inv s h
  have hnodup : s.fulfilled.Nodup := hinv.serialNodup.of_append_right
  refine ⟨hnodup, ?_, ?_⟩
  · exact fun m => List.nodup_iff_count_le_one.mp hnodup m
  · intro hheap
    exact drained_of_heap_empty s hinv hheap

theorem C1_witness :
    demoDone.fulfilled.Nodup ∧ sumProcessed demoDone = (demoDone.nextSerial : ℤ) :=
  ⟨(C1_exactly_once_dispatch demoDone demoDone_reachable).1,
   ((C1_exactly_once_dispatch demoDone demoDone_reachable).2.2 (by decide)).1⟩

/-- C2: the process loop performs exactly one dispatch per activation (ticker
tick or poke), rather than draining the heap: with two dispatchable size-1
requests queued in class a, one activation fulfils one request and leaves
the other queued, with the heap still non-empty. -/
theorem C2_one_dispatch_per_activation :
    (pendingSerials demoTwo).length = 2 ∧ demoTwo.heap ≠ [] ∧
    (processLoopActivation demoTwo 0).fulfilled.length = 1 ∧
    (pendingSerials (processLoopActivation demoTwo 0)).length = 1 ∧
    (processLoopActivation demoTwo 0).heap ≠ [] := by decide

/-- C3 counterexample: after Stop, an Enqueue with size 0 (and likewise with a
negative size) still succeeds and returns a completion handle, contradicting
the claim that it returns ErrInvalidSize or ErrSchedulerStopped. -/
theorem C3_counterexample :
    (Stop demoRegistered).stopped = true ∧
    (Enqueue (Stop demoRegistered) "a" "r" 0 0).1 = some 0 ∧
    (Enqueue (Stop demoRegistered) "a" "r" (-5) 0).1 = some 0 := by decide

/-- C3 amended: Enqueue signals an error (the queue-not-found error, its only
error) exactly when the class id is unregistered; the size is not validated
and stopping the scheduler has no effect on admission.  On success it returns
the handle of the freshly allocated completion channel. -/
theorem C3_error_iff_unknown_class (s : WFQScheduler) (qid rid : String)
    (size now : ℤ) :
    ((Enqueue s qid rid size now).1 = none ↔ findQ s.queues qid = none) ∧
    (∀ n, (Enqueue s qid rid size now).1 = some n → n = s.nextSerial) := by
  cases hfind : findQ s.queues qid with
  | none =>
      rw [Enqueue_not_found s qid rid size now hfind]
      exact ⟨by simp [hfind], by simp⟩
  | some queue =>
      cases hact : queue.active with
      | true =>
          rw [Enqueue_active_eq s qid rid size now queue hfind hact]
          refine ⟨by simp [hfind], ?_⟩
          intro n hn
          simpa using hn.symm
      | false =>
          rw [Enqueue_inactive_eq s qid rid size now queue hfind hact]
          refine ⟨by simp [hfind], ?_⟩
          intro n hn
          simpa using hn.symm

theorem C3_witness : (Enqueue NewWFQScheduler "x" "r" 1 0).1 = none :=
  (C3_error_iff_unknown_class NewWFQScheduler "x" "r" 1 0).1.mpr (by decide)

/-- C4 counterexample: AddQueue with weight -1 registers the class and signals
nothing (the function has no error result), and re-registering the same id is
a silent no-op; the claimed ErrInvalidWeight and ErrDuplicateClass failures do
not exist in the code. -/
theorem C4_counterexample :
    findQ (AddQueue NewWFQScheduler "a" (-1) 0).queues "a"
      = some (freshQueue "a" (-1) 0) ∧
    AddQueue (AddQueue NewWFQScheduler "a" (-1) 0) "a" 2 0
      = AddQueue NewWFQScheduler "a" (-1) 0 := by decide

/-- C4 amended: AddQueue cannot fail: a fresh id is registered with the given
weight unchecked (including non-positive weights), and a duplicate id leaves
the scheduler entirely unchanged without signalling anything. -/
theorem C4_registration_unvalidated (s : WFQScheduler) (id : String) (w : ℚ)
    (now : ℤ) :
    (findQ s.queues id = none →
      findQ (AddQueue s id w now).queues id = some (freshQueue id w now)) ∧
    (∀ q0, findQ s.queues id = some q0 → AddQueue s id w now = s) := by
  constructor
  · intro hfind
    unfold AddQueue
    rw [hfind]
    show findQ (s.queues ++ [(id, freshQueue id w now)]) id = some (freshQueue id w now)
    rw [findQ_append_single s.queues id _ hfind, if_pos rfl]
  · intro q0 hfind
    unfold AddQueue
    rw [hfind]

theorem C4_witness :
    findQ (AddQueue NewWFQScheduler "b" (-7) 3).queues "b"
      = some (freshQueue "b" (-7) 3) ∧
    AddQueue demoRegistered "a" 0 9 = demoRegistered :=
  ⟨(C4_registration_unvalidated NewWFQScheduler "b" (-7) 3).1 (by decide),
   (C4_registration_unvalidated demoRegistered "a" 0 9).2 (freshQueue "a" 1 0) (by decide)⟩

/-- C5: a successful Enqueue into a class whose backlog is empty (equivalently
an inactive class) sets the class virtualFinish to max(globalVirtualTime, 0) +
size / weight — the global virtual clock is non-negative in every reachable
state, so no stale value from an earlier busy period survives — and pushes the
class into the heap (its id then occurs exactly once there). -/
theorem C5_idle_restart_fresh (s : WFQScheduler) (qid rid : String) (size now : ℤ)
    (h : Reachable s) (queue : Queue) (hfind : findQ s.queues qid = some queue)
    (hempty : queue.requests = []) :
    ∃ q1, findQ ((Enqueue s qid rid size now).2).queues qid = some q1 ∧
      q1.virtualFinish = max s.virtualTime 0 + (size : ℚ) / queue.weight ∧
      (((Enqueue s qid rid size now).2).heap.map HeapElem.qid).count qid = 1 := by
  have hinv := reachable_inv s h
  have hact : queue.active = false := by
    cases hqa : queue.active with
    | false => rfl
    | true => exact absurd hempty ((hinv.activePending qid queue hfind).mp hqa)
  rw [Enqueue_inactive_state s qid rid size now queue hfind hact]
  obtain ⟨A, B, hqs, hA, hset⟩ := setQ_decomp hfind
  set qX : Queue := { queue with
    requests := queue.requests ++ [mkRequest qid rid size now s.nextSerial]
    active := true
    virtualFinish := s.virtualTime + (size : ℚ) / queue.weight } with hqX
  rw [hset qX]
  set x : HeapElem := ⟨s.virtualTime + (size : ℚ) / queue.weight, qid⟩ with hx
  refine ⟨qX, findQ_mid_self B hA qX, ?_, ?_⟩
  · have : qX.virtualFinish = s.virtualTime + (size : ℚ) / queue.weight := by
      simp [hqX]
    rw [this, max_eq_left hinv.vtNonneg]
  · have hcnt0 : (List.map HeapElem.qid s.heap).count qid = 0 := by
      have hc := hinv.heapCount qid queue hfind
      rw [hact] at hc
      simpa using hc
    have hp := (heapPush_perm s.heap x).map HeapElem.qid
    rw [hp.count_eq qid]
    simp [hx, List.count_cons, hcnt0]

theorem C5_witness :
    ∃ q1, findQ ((Enqueue (AddQueue NewWFQScheduler "a" 2 0) "a" "r" 3 0).2).queues "a"
        = some q1 ∧
      q1.virtualFinish = max (AddQueue NewWFQScheduler "a" 2 0).virtualTime 0
        + ((3 : ℤ) : ℚ) / (freshQueue "a" 2 0).weight ∧
      ((((Enqueue (AddQueue NewWFQScheduler "a" 2 0) "a" "r" 3 0).2).heap.map
        HeapElem.qid).count "a") = 1 :=
  C5_idle_restart_fresh (AddQueue NewWFQScheduler "a" 2 0) "a" "r" 3 0
    (Relation.ReflTransGen.tail Relation.ReflTransGen.refl (Step.addQueue _ "a" 2 0))
    (freshQueue "a" 2 0) (by decide) rfl

/-- C6: the global virtual clock never decreases under any operation:
AddQueue, Enqueue, GetStats and Stop leave it unchanged, processNext never
decreases it, and a dispatching processNext advances it to
max(globalVirtualTime, c.virtualFinish) for the popped class c. -/
theorem C6_virtual_time_monotone :
    (∀ (s : WFQScheduler) (id : String) (w : ℚ) (now : ℤ),
      (AddQueue s id w now).virtualTime = s.virtualTime) ∧
    (∀ (s : WFQScheduler) (qid rid : String) (size now : ℤ),
      ((Enqueue s qid rid size now).2).virtualTime = s.virtualTime) ∧
    (∀ s : WFQScheduler, ((GetStatsOp s).2).virtualTime = s.virtualTime) ∧
    (∀ s : WFQScheduler, (Stop s).virtualTime = s.virtualTime) ∧
    (∀ (s : WFQScheduler) (now : ℤ), s.virtualTime ≤ (processNext s now).virtualTime) ∧
    (∀ (s : WFQScheduler) (now : ℤ) (queue : Queue), s.heap ≠ [] →
      findQ s.queues (heapPop s.heap).1.qid = some queue → queue.requests ≠ [] →
      (processNext s now).virtualTime = max s.virtualTime queue.virtualFinish) := by
  refine ⟨?_, ?_, fun s => rfl, fun s => rfl, ?_, ?_⟩
  · intro s id w now
    unfold AddQueue
    cases findQ s.queues id <;> rfl
  · intro s qid rid size now
    cases hfind : findQ s.queues qid with
    | none => rw [Enqueue_not_found s qid rid size now hfind]
    | some queue =>
        cases hact : queue.active with
        | true => rw [Enqueue_active_state s qid rid size now queue hfind hact]
        | false => rw [Enqueue_inactive_state s qid rid size now queue hfind hact]
  · intro s now
    by_cases hne : s.heap.length = 0
    · rw [processNext_empty s now hne]
    · cases hfind : findQ s.queues (heapPop s.heap).1.qid with
      | none =>
          rw [processNext_missing_eq s now hne hfind]
      | some queue =>
          cases hreq : queue.requests with
          | nil => rw [processNext_stale_eq s now queue hne hfind hreq]
          | cons request remaining =>
              cases remaining with
              | nil =>
                  rw [processNext_last_eq s now queue request hne hfind hreq]
                  exact le_max_left _ _
              | cons nextReq rem2 =>
                  rw [processNext_more_eq s now queue request nextReq rem2 hne hfind hreq]
                  exact le_max_left _ _
  · intro s now queue hne hfind hreq
    have hlen : ¬ s.heap.length = 0 := by
      simpa [List.length_eq_zero] using hne
    cases hreqc : queue.requests with
    | nil => exact absurd hreqc hreq
    | cons request remaining =>
        cases remaining with
        | nil => rw [processNext_last_eq s now queue request hlen hfind hreqc]
        | cons nextReq rem2 =>
            rw [processNext_more_eq s now queue request nextReq rem2 hlen hfind hreqc]

theorem C6_witness :
    (processNext demoOne 0).virtualTime
      = max demoOne.virtualTime
          (Queue.mk "a" 1 1 [mkRequest "a" "r" 1 0 0] true 0 0 0).virtualFinish :=
  C6_virtual_time_monotone.2.2.2.2.2 demoOne 0
    (Queue.mk "a" 1 1 [mkRequest "a" "r" 1 0 0] true 0 0 0)
    (by decide) (by decide) (by decide)

/-- C7: in every reachable state — equivalently at every observable point,
since the mutex serialises the operations whose interleavings generate
exactly these states — each class id occurs in the heap at most once, and no
class with an empty backlog occurs in the heap at all. -/
theorem C7_heap_membership (s : WFQScheduler) (h : Reachable s) :
    (∀ k, (s.heap.map HeapElem.qid).count k ≤ 1) ∧
    (∀ k q, findQ s.queues k = some q → q.requests = [] →
      ∀ e ∈ s.heap, e.qid ≠ k) := by
  have hinv := reachable_inv s h
  constructor
  · intro k
    cases hfind : findQ s.queues k with
    | some q =>
        rw [hinv.heapCount k q hfind]
        split <;> omega
    | none =>
        have hnot : k ∉ s.heap.map HeapElem.qid := by
          intro hmem
          obtain ⟨e, he, hek⟩ := List.mem_map.1 hmem
          obtain ⟨q1, hq1, _, _⟩ := hinv.heapLive e he
          rw [hek, hfind] at hq1
          exact Option.noConfusion hq1
        rw [List.count_eq_zero.mpr hnot]
        omega
  · intro k q hfind hreq e he hek
    obtain ⟨q1, hq1, _, hac1⟩ := hinv.heapLive e he
    rw [hek, hfind] at hq1
    obtain rfl : q1 = q := by simpa using hq1.symm
    exact ((hinv.activePending k q1 hfind).mp hac1) hreq

theorem C7_witness : ((demoOne.heap.map HeapElem.qid).count "a") ≤ 1 :=
  (C7_heap_membership demoOne demoOne_reachable).1 "a"

/-- C8 counterexample: with classes registered in the order a, b, c and all
three holding one size-1 request, every class has virtualFinish 1; after the
first dispatch (class a) the heap holds the entries for c and b with equal
keys, and the next pop serves c, the later-registered class, so the trace of
fulfilled serials is [0, 2] (a then c) — ties are not broken by registration
order. -/
theorem C8_no_registration_tiebreak :
    demoABCLoaded.queues.map Prod.fst = ["a", "b", "c"] ∧
    demoTie.heap = [⟨1, "c"⟩, ⟨1, "b"⟩] ∧
    ((heapPop demoTie.heap).1).qid = "c" ∧
    (processNext demoTie 0).fulfilled = [0, 2] := by decide

/-- C8 amended: in every reachable state with a non-empty heap, dispatch pops
a class whose virtualFinish is minimal among all heap entries (the popped
entry carries exactly the virtualFinish of its class); equal-key ties are
resolved by the heap layout, not necessarily by registration order. -/
theorem C8_pop_minimal_virtual_finish (s : WFQScheduler) (h : Reachable s)
    (hne : s.heap ≠ []) :
    (∀ e ∈ s.heap, ((heapPop s.heap).1).vf ≤ e.vf) ∧
    (∃ queue, findQ s.queues ((heapPop s.heap).1).qid = some queue ∧
      queue.virtualFinish = ((heapPop s.heap).1).vf) := by
  have hinv := reachable_inv s h
  refine ⟨heapPop_min s.heap hinv.ordered hne, ?_⟩
  have hmem : (heapPop s.heap).1 ∈ s.heap :=
    (heapPop_perm s.heap hne).symm.subset (List.mem_cons_self _ _)
  obtain ⟨q, hq, hvf, _⟩ := hinv.heapLive _ hmem
  exact ⟨q, hq, hvf⟩

theorem C8_witness : ((heapPop demoABCLoaded.heap).1).vf ≤ (HeapElem.mk 1 "b").vf :=
  (C8_pop_minimal_virtual_finish demoABCLoaded demoABCLoaded_reachable (by decide)).1
    ⟨1, "b"⟩ (by decide)

/-- C9: the GetStats snapshot of a class with processedCount 0 reports an
average delay of 0; the division totalDelay / processedCount (int64 division,
truncating toward zero) is taken only under the guard processedCount > 0. -/
theorem C9_avg_delay_guarded (s : WFQScheduler) (k : String) (q : Queue)
    (hfind : findQ s.queues k = some q) :
    ∃ st, findStats (GetStats s) k = some st ∧
      (q.processed = 0 → st.avgDelay = 0) ∧
      (0 < q.processed → st.avgDelay = Int.tdiv q.totalDelay q.processed) := by
  refine ⟨statsOf q, ?_, ?_, ?_⟩
  · exact findStats_map s.queues k q hfind
  · intro hp
    simp [statsOf, hp]
  · intro hp
    simp [statsOf, hp]

theorem C9_witness :
    ∃ st, findStats (GetStats demoRegistered) "a" = some st ∧
      ((freshQueue "a" 1 0).processed = 0 → st.avgDelay = 0) ∧
      (0 < (freshQueue "a" 1 0).processed → st.avgDelay
        = Int.tdiv (freshQueue "a" 1 0).totalDelay (freshQueue "a" 1 0).processed) :=
  C9_avg_delay_guarded demoRegistered "a" (freshQueue "a" 1 0) (by decide)

/-- C10: registering an id that is already registered is a silent no-op:
AddQueue returns with the whole scheduler state — the existing class record
(weight, backlog, virtualFinish, active flag, statistics), the heap, and every
other field — unchanged, and no error is signalled (AddQueue has no error
result at all). -/
theorem C10_duplicate_registration_noop (s : WFQScheduler) (id : String) (w : ℚ)
    (now : ℤ) (q0 : Queue) (hfind : findQ s.queues id = some q0) :
    AddQueue s id w now = s := by
  unfold AddQueue
  rw [hfind]

theorem C10_witness : AddQueue demoRegistered "a" 99 5 = demoRegistered :=
  C10_duplicate_registration_noop demoRegistered "a" 99 5 (freshQueue "a" 1 0)
    (by decide)

end Claims

end WFQ
